import Mathlib

/-!
Shallow embedding of the generational object pool (`sync.Pool`, source file
`part_006`) and its process-wide registry, together with proofs about the
behaviour of `Put`, `Get`, `getSlow`, `pin`/`pinSlow` and `poolCleanup`.

Modelling conventions:
* Go `interface{}` values are `Option α`: `none` is the nil / empty marker,
  `some v` a non-nil value.
* The race-detector instrumentation (`race.Enabled`) is compiled out in
  normal builds; it is omitted (all the guarded code is dead when
  `race.Enabled = false`).
* Pointers to shard tables (`local`, `victim`, of type `unsafe.Pointer`)
  become `Option (List (PoolLocal α))`, `none` standing for the nil pointer.
  `indexLocal` becomes `List.getD`.
* `runtime.GOMAXPROCS(0)` is the parameter `procs`; `runtime_procPin` yields
  the parameter `pid` (the scheduler guarantees `pid < procs`).
* The field `private` of `poolLocalInternal` is a Lean keyword; it is named
  `priv` here.  The zero-size `noCopy` marker field carries no data and is
  checked only statically by `go vet`; it contributes no runtime state.
* Operations that in Go mutate through pointers are state-passing functions;
  `pin`/`Put`/`Get` additionally return the `Bool` "this call appended the
  pool to `allPools`" so that the registry level can record registrations.
-/

namespace GoSync

variable {α : Type}

/-- Modelled from the spec: the Chain implementation (`poolChain`, referenced
from `part_006` but not among the source files) is, per §2/§4.4 of the spec,
an ordered growable sequence with push/pop at the head (owner side) and pop at
the tail (steal side).  A chain holds only non-nil values.  `pushHead`
prepends the new value at the owner end. -/
def pushHead (c : List α) (x : α) : List α := x :: c

/-- Modelled from the spec: owner-side pop of the most recently pushed value
(LIFO end); returns the nil marker on an exhausted chain. -/
def popHead : List α → Option α × List α
  | [] => (none, [])
  | x :: xs => (some x, xs)

/-- Modelled from the spec: steal-side pop of the oldest value (the tail end
of the sequence); returns the nil marker on an exhausted chain. -/
def popTail (c : List α) : Option α × List α :=
  match c.getLast? with
  | none => (none, c)
  | some x => (some x, c.dropLast)

/-- `poolLocalInternal` / `poolLocal` from the source: one private slot only
its own scheduling unit touches, plus the shared chain.  (The padding field
carries no data.) -/
structure PoolLocal (α : Type) where
  priv : Option α
  shared : List α

/-- The all-empty shard, as produced by `make([]poolLocal, size)`
(zero-initialised), and also the value `indexLocal` semantics default to. -/
def emptyLocal : PoolLocal α := ⟨none, []⟩

/-- The `Pool` struct of the source: current shard table pointer and its
size, victim table pointer and its size, and the optional factory `New`.
The `noCopy` field is zero-size and purely a static-analysis marker. -/
structure Pool (α : Type) where
  localTable : Option (List (PoolLocal α))
  localSize : Nat
  victim : Option (List (PoolLocal α))
  victimSize : Nat
  New : Option (Unit → α)

/-- The zero `Pool`: both table pointers nil, sizes zero, no factory. -/
def emptyPool : Pool α := ⟨none, 0, none, 0, none⟩

/-- `pinSlow` (without its registry side effect, which is reported as the
returned `Bool`): re-check the size under the mutex, then — registering the
pool iff its `local` pointer is nil — allocate a fresh zero-initialised
shard table of `GOMAXPROCS(0) = procs` shards and publish it together with
its size. -/
def pinSlow (procs pid : Nat) (p : Pool α) : Pool α × Bool :=
  if pid < p.localSize then (p, false)
  else
    (⟨some (List.replicate procs emptyLocal), procs, p.victim, p.victimSize, p.New⟩,
     p.localTable.isNone)

/-- `pin`: if the pinned unit's id is below the published size, use the
current table; otherwise fall into `pinSlow`.  The `Bool` records whether
the call appended the pool to `allPools`. -/
def pin (procs pid : Nat) (p : Pool α) : Pool α × Bool :=
  if pid < p.localSize then (p, false) else pinSlow procs pid p

/-- `Pool.Put`: nil values are dropped; otherwise pin, store into the
private slot if it is free, else push onto the owner end of the shard's
chain. -/
def Pool.Put (procs pid : Nat) (p : Pool α) (x : Option α) : Pool α × Bool :=
  match x with
  | none => (p, false)
  | some v =>
    let r := pin procs pid p
    let p1 := r.1
    let t := p1.localTable.getD []
    let l := t.getD pid emptyLocal
    match l.priv with
    | none => ({ p1 with localTable := some (t.set pid ⟨some v, l.shared⟩) }, r.2)
    | some w => ({ p1 with localTable := some (t.set pid ⟨some w, pushHead l.shared v⟩) }, r.2)

/-- The index order of the steal phase of `getSlow`:
`for i := 0; i < size; i++ { indexLocal(locals, (pid+i+1)%size) }`. -/
def stealOrder (size pid : Nat) : List Nat :=
  (List.range size).map fun i => (pid + i + 1) % size

/-- The index order of the victim-chain phase of `getSlow`:
`for i := 0; i < size; i++ { indexLocal(locals, (pid+i)%size) }`. -/
def victimOrder (size pid : Nat) : List Nat :=
  (List.range size).map fun i => (pid + i) % size

/-- One `popTail` loop over a table at the given index order, returning the
first non-nil steal together with the updated table (a missed `popTail`
leaves the table as it was). -/
def stealLoop (t : List (PoolLocal α)) : List Nat → Option α × List (PoolLocal α)
  | [] => (none, t)
  | i :: rest =>
    let l := t.getD i emptyLocal
    match popTail l.shared with
    | (some x, c) => (some x, t.set i ⟨l.priv, c⟩)
    | (none, _) => stealLoop t rest

/-- `Pool.getSlow`: steal from the current table in `stealOrder`; then, if
`pid` is below the victim size, try the victim shard at the same index's
private slot, then the victim chains in `victimOrder`; if that whole victim
scan misses, publish victim size 0 so future gets skip the victim cache.
When `pid` is not below the victim size the function returns nil at once,
leaving the victim size untouched. -/
def Pool.getSlow (pid : Nat) (p : Pool α) : Option α × Pool α :=
  let size := p.localSize
  let t := p.localTable.getD []
  match stealLoop t (stealOrder size pid) with
  | (some x, t1) => (some x, { p with localTable := some t1 })
  | (none, _) =>
    let vsize := p.victimSize
    if vsize ≤ pid then (none, p)
    else
      let vt := p.victim.getD []
      let l := vt.getD pid emptyLocal
      match l.priv with
      | some x => (some x, { p with victim := some (vt.set pid ⟨none, l.shared⟩) })
      | none =>
        match stealLoop vt (victimOrder vsize pid) with
        | (some x, vt1) => (some x, { p with victim := some vt1 })
        | (none, _) => (none, { p with victimSize := 0 })

/-- `Pool.Get`: pin; take and clear the private slot; on a miss pop the head
of the own shard's chain; on a miss run `getSlow`; finally, if still nil and
a factory is configured, return the factory's output. -/
def Pool.Get (procs pid : Nat) (p : Pool α) : Option α × Pool α × Bool :=
  let r := pin procs pid p
  let p1 := r.1
  let t := p1.localTable.getD []
  let l := t.getD pid emptyLocal
  match l.priv with
  | some x => (some x, { p1 with localTable := some (t.set pid ⟨none, l.shared⟩) }, r.2)
  | none =>
    let h := popHead l.shared
    let p2 := { p1 with localTable := some (t.set pid ⟨none, h.2⟩) }
    match h.1 with
    | some x => (some x, p2, r.2)
    | none =>
      match p2.getSlow pid with
      | (some x, p3) => (some x, p3, r.2)
      | (none, p3) =>
        match p3.New with
        | some f => (some (f ()), p3, r.2)
        | none => (none, p3, r.2)

/-- The value `Get` produces once every reuse path has missed: the factory's
output when one is configured, the nil marker otherwise. -/
def newVal : Option (Unit → α) → Option α
  | none => none
  | some f => some (f ())

/-- The private slot the pinned unit will operate on: the shard at index
`pid` of the table as published by `pin`. -/
def pinnedPriv (procs pid : Nat) (p : Pool α) : Option α :=
  (((pin procs pid p).1.localTable.getD []).getD pid emptyLocal).priv

/-- A shard holding no value: free private slot and exhausted chain. -/
def localEmpty (l : PoolLocal α) : Prop := l.priv = none ∧ l.shared = []

/-- A table pointer holding no value (a nil pointer holds none). -/
def tableEmpty : Option (List (PoolLocal α)) → Prop
  | none => True
  | some t => ∀ l ∈ t, localEmpty l

/-- A pool holding no value in its current table, its victim generation and
all their chains. -/
def poolEmpty (p : Pool α) : Prop := tableEmpty p.localTable ∧ tableEmpty p.victim

/-- Size bookkeeping as the source maintains it: the published size is 0
while the table pointer is nil and the table's length once published. -/
def WF (p : Pool α) : Prop :=
  (p.localTable = none → p.localSize = 0) ∧
  (∀ t, p.localTable = some t → t.length = p.localSize)

/-- A field-wise value copy of a `Pool`, i.e. what Go's `q := *p` builds
from the fields of the struct on lines 20–30 of the source (the `noCopy`
marker is zero-size and carries no runtime data). -/
def fieldwiseCopy (p : Pool α) : Pool α :=
  ⟨p.localTable, p.localSize, p.victim, p.victimSize, p.New⟩

/-- Victim drop, the first loop of `poolCleanup`:
`p.victim = nil; p.victimSize = 0`. -/
def dropVictim (p : Pool α) : Pool α :=
  { p with victim := none, victimSize := 0 }

/-- Demotion, the second loop of `poolCleanup`: `p.victim = p.local;
p.victimSize = p.localSize; p.local = nil; p.localSize = 0`. -/
def demote (p : Pool α) : Pool α :=
  { p with victim := p.localTable, victimSize := p.localSize,
           localTable := none, localSize := 0 }

/-- The process-wide registry state: the pools themselves (identified by
their index) and the two bookkeeping lists `allPools` (pools with a
non-empty primary cache) and `oldPools` (pools that may have a non-empty
victim cache). -/
structure World (α : Type) where
  pools : List (Pool α)
  allPools : List Nat
  oldPools : List Nat

/-- A world of `n` zero pools with empty registry lists. -/
def initWorld (n : Nat) : World α :=
  ⟨List.replicate n emptyPool, [], []⟩

/-- `Put` on pool `id`, recording the registration `pinSlow` performs when
the pool's `local` pointer is nil (`allPools = append(allPools, p)`). -/
def WPut (procs pid id : Nat) (x : Option α) (w : World α) : World α :=
  let r := Pool.Put procs pid (w.pools.getD id emptyPool) x
  { pools := w.pools.set id r.1,
    allPools := if r.2 then w.allPools ++ [id] else w.allPools,
    oldPools := w.oldPools }

/-- `Get` on pool `id`, recording the registration exactly as `WPut`. -/
def WGet (procs pid id : Nat) (w : World α) : Option α × World α :=
  let r := Pool.Get procs pid (w.pools.getD id emptyPool)
  (r.1,
   { pools := w.pools.set id r.2.1,
     allPools := if r.2.2 then w.allPools ++ [id] else w.allPools,
     oldPools := w.oldPools })

/-- `poolCleanup`, the collector's rotation hook: drop the victim caches of
every pool in `oldPools`, demote the primary cache of every pool in
`allPools`, then `oldPools, allPools = allPools, nil`. -/
def poolCleanup (w : World α) : World α :=
  let pools1 := w.oldPools.foldl
    (fun acc i => acc.set i (dropVictim (acc.getD i emptyPool))) w.pools
  let pools2 := w.allPools.foldl
    (fun acc i => acc.set i (demote (acc.getD i emptyPool))) pools1
  { pools := pools2, allPools := [], oldPools := w.allPools }

/-- One atomic operation of the register/rotate step relation: a `Put` or a
`Get` by a unit pinned to a valid shard index on an existing pool, or one
invocation of the rotation hook. -/
inductive Step (procs : Nat) : World α → World α → Prop where
  | put : ∀ (w : World α) (pid id : Nat) (x : Option α), pid < procs →
      id < w.pools.length → Step procs w (WPut procs pid id x w)
  | get : ∀ (w : World α) (pid id : Nat), pid < procs →
      id < w.pools.length → Step procs w (WGet procs pid id w).2
  | cleanup : ∀ w : World α, Step procs w (poolCleanup w)

/-- The worlds reachable from `n` fresh pools by put/get/rotation steps. -/
inductive Reachable (procs n : Nat) : World α → Prop where
  | init : Reachable procs n (initWorld n)
  | step : ∀ w w' : World α, Reachable procs n w → Step procs w w' →
      Reachable procs n w'

/-- A sequence of `Get`s (by the listed pinned unit ids) on one pool,
collecting the returned values. -/
def GetSeq (procs : Nat) : List Nat → Pool α → List (Option α) × Pool α
  | [], p => ([], p)
  | pid :: rest, p =>
    let r := Pool.Get procs pid p
    let s := GetSeq procs rest r.2.1
    (r.1 :: s.1, s.2)

/-! ### List indexing helper lemmas -/

theorem getD_set_self {β : Type} (l : List β) (i : Nat) (a d : β)
    (h : i < l.length) : (l.set i a).getD i d = a := by
  rw [List.getD_eq_getElem?_getD, List.getElem?_set]
  simp [h]

theorem getD_set_ne {β : Type} (l : List β) (i j : Nat) (a d : β)
    (h : i ≠ j) : (l.set i a).getD j d = l.getD j d := by
  rw [List.getD_eq_getElem?_getD, List.getElem?_set, if_neg h,
    List.getD_eq_getElem?_getD]

theorem getD_replicate {β : Type} (n i : Nat) (a : β) :
    (List.replicate n a).getD i a = a := by
  rw [List.getD_eq_getElem?_getD, List.getElem?_replicate]
  split <;> rfl

/-! ### Emptiness helper lemmas -/

theorem localEmpty_emptyLocal : localEmpty (emptyLocal : PoolLocal α) :=
  ⟨rfl, rfl⟩

theorem tableEmpty_getD {t : List (PoolLocal α)} (h : tableEmpty (some t))
    (i : Nat) : localEmpty (t.getD i emptyLocal) := by
  by_cases hi : i < t.length
  · rw [List.getD_eq_getElem _ _ hi]
    exact h _ (List.getElem_mem hi)
  · rw [List.getD_eq_default _ _ (Nat.le_of_not_lt hi)]
    exact localEmpty_emptyLocal

theorem tableEmpty_set {t : List (PoolLocal α)} (h : tableEmpty (some t))
    (x : PoolLocal α) (hx : localEmpty x) (i : Nat) :
    tableEmpty (some (t.set i x)) := by
  intro l hl
  rcases List.mem_or_eq_of_mem_set hl with hm | he
  · exact h _ hm
  · exact he ▸ hx

theorem tableEmpty_replicate (n : Nat) :
    tableEmpty (some (List.replicate n (emptyLocal : PoolLocal α))) := by
  intro l hl
  rw [List.eq_of_mem_replicate hl]
  exact localEmpty_emptyLocal

/-! ### Steal-loop lemmas -/

theorem popTail_nil : popTail ([] : List α) = (none, []) := rfl

theorem stealLoop_of_empty (t : List (PoolLocal α)) (idxs : List Nat)
    (h : ∀ i ∈ idxs, (t.getD i emptyLocal).shared = []) :
    stealLoop t idxs = (none, t) := by
  induction idxs with
  | nil => rfl
  | cons i rest ih =>
    have hi : (t.getD i emptyLocal).shared = [] := h i (List.mem_cons_self i rest)
    simp only [stealLoop, hi, popTail_nil]
    exact ih fun j hj => h j (List.mem_cons_of_mem _ hj)

theorem stealLoop_of_tableEmpty {t : List (PoolLocal α)}
    (h : tableEmpty (some t)) (idxs : List Nat) :
    stealLoop t idxs = (none, t) :=
  stealLoop_of_empty t idxs fun i _ => (tableEmpty_getD h i).2

theorem tableEmpty_opt {o : Option (List (PoolLocal α))} (h : tableEmpty o) :
    tableEmpty (some (o.getD [])) := by
  cases o with
  | none => intro l hl; cases hl
  | some t => exact h

/-! ### Behaviour of `pin`, `getSlow` and `Get` on empty pools -/

theorem pin_empty (procs pid : Nat) {p : Pool α} (h : poolEmpty p) :
    poolEmpty (pin procs pid p).1 ∧ (pin procs pid p).1.victim = p.victim ∧
      (pin procs pid p).1.victimSize = p.victimSize ∧
      (pin procs pid p).1.New = p.New := by
  unfold pin pinSlow
  split
  · exact ⟨h, rfl, rfl, rfl⟩
  · exact ⟨⟨tableEmpty_replicate procs, h.2⟩, rfl, rfl, rfl⟩

theorem getSlow_of_empty (pid : Nat) {p : Pool α} (h : poolEmpty p) :
    Pool.getSlow pid p =
      (none, if p.victimSize ≤ pid then p else { p with victimSize := 0 }) := by
  have ht : tableEmpty (some (p.localTable.getD [])) := tableEmpty_opt h.1
  have hv : tableEmpty (some (p.victim.getD [])) := tableEmpty_opt h.2
  simp only [Pool.getSlow, stealLoop_of_tableEmpty ht]
  by_cases hc : p.victimSize ≤ pid
  · simp [hc]
  · simp only [if_neg hc, (tableEmpty_getD hv pid).1, stealLoop_of_tableEmpty hv]

theorem getSlow_of_empty_ex (pid : Nat) {p : Pool α} (h : poolEmpty p) :
    ∃ q : Pool α, Pool.getSlow pid p = (none, q) ∧ poolEmpty q ∧
      q.New = p.New ∧ q.localTable = p.localTable := by
  by_cases hc : p.victimSize ≤ pid
  · exact ⟨p, by rw [getSlow_of_empty pid h, if_pos hc], h, rfl, rfl⟩
  · exact ⟨{ p with victimSize := 0 }, by rw [getSlow_of_empty pid h, if_neg hc],
      ⟨h.1, h.2⟩, rfl, rfl⟩

theorem Get_of_empty (procs pid : Nat) {p : Pool α} (h : poolEmpty p) :
    (Pool.Get procs pid p).1 = newVal p.New ∧
      poolEmpty (Pool.Get procs pid p).2.1 ∧
      (Pool.Get procs pid p).2.1.New = p.New := by
  obtain ⟨hp1, hv1, hvs1, hn1⟩ := pin_empty procs pid h
  have hsh := tableEmpty_getD (tableEmpty_opt hp1.1) pid
  have hp2 : poolEmpty (Pool.mk
      (some (((pin procs pid p).1.localTable.getD []).set pid ⟨none, []⟩))
      (pin procs pid p).1.localSize (pin procs pid p).1.victim
      (pin procs pid p).1.victimSize (pin procs pid p).1.New) :=
    ⟨tableEmpty_set (tableEmpty_opt hp1.1) ⟨none, []⟩ ⟨rfl, rfl⟩ pid, hp1.2⟩
  obtain ⟨q, hq, hqe, hqn, -⟩ := getSlow_of_empty_ex pid hp2
  simp only [Pool.Get, hsh.1, hsh.2, popHead, hq]
  have hqnp : q.New = p.New := by rw [hqn]; exact hn1
  cases hnw : q.New with
  | none => simp only [hnw, ← hqnp, hnw]; exact ⟨rfl, hqe, trivial⟩
  | some f => simp only [hnw, ← hqnp, hnw]; exact ⟨rfl, hqe, trivial⟩

/-! ### `pin` under size bookkeeping -/

theorem pin_of_lt (procs pid : Nat) (p : Pool α) (h : pid < p.localSize) :
    pin procs pid p = (p, false) := by
  unfold pin
  rw [if_pos h]

theorem pin_wf {p : Pool α} (hwf : WF p) (procs pid : Nat) (hpid : pid < procs) :
    ∃ t : List (PoolLocal α), (pin procs pid p).1.localTable = some t ∧
      (pin procs pid p).1.localSize = t.length ∧ pid < t.length ∧
      (pin procs pid p).1.New = p.New := by
  unfold pin pinSlow
  split
  · rename_i hlt
    cases hl : p.localTable with
    | none => exact absurd hlt (by rw [hwf.1 hl]; exact Nat.not_lt_zero pid)
    | some t =>
      exact ⟨t, rfl, (hwf.2 t hl).symm, by rw [hwf.2 t hl]; exact hlt, rfl⟩
  · exact ⟨List.replicate procs emptyLocal, rfl,
      (List.length_replicate procs emptyLocal).symm,
      by rw [List.length_replicate]; exact hpid, rfl⟩

/-! ### Claim theorems -/

/-- C1: for every pool whose current table, victim generation and all their
chains hold no value (in particular a fresh pool with no prior Put), `Get`
never errors: it returns the configured factory's output when `New` is set,
and the nil marker otherwise. -/
theorem claim1_get_on_empty_pool (procs pid : Nat) (p : Pool α)
    (h : poolEmpty p) : (Pool.Get procs pid p).1 = newVal p.New :=
  (Get_of_empty procs pid h).1

/-- Witness for C1 at a fresh pool with a factory returning 42. -/
theorem claim1_get_on_empty_pool_witness :
    poolEmpty (⟨none, 0, none, 0, some fun _ => (42 : Nat)⟩ : Pool Nat) ∧
      (Pool.Get 1 0 (⟨none, 0, none, 0, some fun _ => (42 : Nat)⟩ : Pool Nat)).1 =
        some 42 :=
  ⟨⟨trivial, trivial⟩, claim1_get_on_empty_pool 1 0 _ ⟨trivial, trivial⟩⟩

/-- C2 counterexample: with the pinned shard's private slot already holding
the value 1, `Put 2` goes to the chain and the following `Get` returns the
private slot's 1, not the value 2 just put — refuting the claim's "for every
pool state ... returns exactly A". -/
theorem claim2_counterexample :
    (Pool.Get 1 0
        (Pool.Put 1 0 (⟨some [⟨some 1, []⟩], 1, none, 0, none⟩ : Pool Nat)
          (some 2)).1).1 = some 1 ∧
      (some 1 : Option Nat) ≠ some 2 := by
  exact ⟨by decide, by decide⟩

/-- C2 (amended): sequential `Put A; Get` pinned to the same shard returns
exactly `A` provided the pinned shard's private slot is free at the `Put`
(as on a fresh pool); `Put` then stores `A` in the private slot and `Get`
takes it back. -/
theorem claim2_put_get_roundtrip (procs pid : Nat) (p : Pool α) (a : α)
    (hwf : WF p) (hpid : pid < procs)
    (hfree : pinnedPriv procs pid p = none) :
    (Pool.Get procs pid (Pool.Put procs pid p (some a)).1).1 = some a := by
  obtain ⟨t, hlt, hls, hplen, -⟩ := pin_wf hwf procs pid hpid
  have hfree' : (t.getD pid emptyLocal).priv = none := by
    unfold pinnedPriv at hfree
    rw [hlt] at hfree
    exact hfree
  have hput : (Pool.Put procs pid p (some a)).1 = Pool.mk
      (some (t.set pid ⟨some a, (t.getD pid emptyLocal).shared⟩))
      (pin procs pid p).1.localSize (pin procs pid p).1.victim
      (pin procs pid p).1.victimSize (pin procs pid p).1.New := by
    simp only [Pool.Put, hlt, Option.getD_some, hfree']
  rw [hput]
  have hc : pid < (pin procs pid p).1.localSize := by
    rw [hls]; exact hplen
  have hshard : ((t.set pid ⟨some a, (t.getD pid emptyLocal).shared⟩).getD pid
      emptyLocal) = ⟨some a, (t.getD pid emptyLocal).shared⟩ :=
    getD_set_self t pid _ emptyLocal hplen
  have hpin2 := pin_of_lt procs pid (Pool.mk
      (some (t.set pid ⟨some a, (t.getD pid emptyLocal).shared⟩))
      (pin procs pid p).1.localSize (pin procs pid p).1.victim
      (pin procs pid p).1.victimSize (pin procs pid p).1.New) hc
  simp only [Pool.Get, hpin2, Option.getD_some, hshard]

/-- Witness for C2 (amended) at a fresh pool, put 7, get 7. -/
theorem claim2_put_get_roundtrip_witness :
    WF (emptyPool : Pool Nat) ∧ (0 : Nat) < 1 ∧
      pinnedPriv 1 0 (emptyPool : Pool Nat) = none ∧
      (Pool.Get 1 0 (Pool.Put 1 0 (emptyPool : Pool Nat) (some 7)).1).1 = some 7 :=
  ⟨⟨fun _ => rfl, fun t h => Option.noConfusion h⟩, Nat.zero_lt_one, rfl,
    claim2_put_get_roundtrip 1 0 emptyPool 7
      ⟨fun _ => rfl, fun t h => Option.noConfusion h⟩ Nat.zero_lt_one rfl⟩

/-! ### Computation lemmas for fresh pools and rotation -/

theorem emptyLocal_priv : (emptyLocal : PoolLocal α).priv = none := rfl

theorem emptyLocal_shared : (emptyLocal : PoolLocal α).shared = [] := rfl

theorem pin_ge (procs pid : Nat) (p : Pool α) (h : ¬ pid < p.localSize) :
    pin procs pid p = (Pool.mk (some (List.replicate procs emptyLocal)) procs
      p.victim p.victimSize p.New, p.localTable.isNone) := by
  unfold pin pinSlow
  rw [if_neg h, if_neg h]

theorem Put_fresh (procs pid : Nat) (v : Option (List (PoolLocal α)))
    (vs : Nat) (nw : Option (Unit → α)) (a : α) :
    Pool.Put procs pid (Pool.mk none 0 v vs nw) (some a) =
      (Pool.mk (some ((List.replicate procs emptyLocal).set pid ⟨some a, []⟩))
        procs v vs nw, true) := by
  have hpin := pin_ge procs pid (Pool.mk none 0 v vs nw) (Nat.not_lt_zero pid)
  simp only [Pool.Put, hpin, Option.getD_some, getD_replicate, emptyLocal_priv,
    emptyLocal_shared, Option.isNone_none]

theorem Get_after_demote (procs : Nat) (h : 0 < procs) (a : α)
    (nw : Option (Unit → α)) :
    (Pool.Get procs 0 (Pool.mk none 0
      (some ((List.replicate procs emptyLocal).set 0 ⟨some a, []⟩)) procs nw)).1 =
      some a := by
  have hpin := pin_ge procs 0 (Pool.mk none 0
    (some ((List.replicate procs emptyLocal).set 0 ⟨some a, []⟩)) procs nw)
    (Nat.not_lt_zero 0)
  have hst := stealLoop_of_tableEmpty
    (tableEmpty_set (tableEmpty_replicate procs) (⟨none, []⟩ : PoolLocal α)
      ⟨rfl, rfl⟩ 0)
    (stealOrder procs 0)
  have hv0 : ((List.replicate procs emptyLocal).set 0
      (⟨some a, []⟩ : PoolLocal α)).getD 0 emptyLocal = ⟨some a, []⟩ := by
    refine getD_set_self _ 0 _ _ ?_
    rw [List.length_replicate]
    exact h
  simp only [Pool.Get, hpin, Option.getD_some, getD_replicate, emptyLocal_priv,
    emptyLocal_shared, popHead, Pool.getSlow, hst, if_neg (Nat.not_le_of_lt h),
    hv0]

theorem GetSeq_empty (procs : Nat) (pids : List Nat) {p : Pool α}
    (h : poolEmpty p) :
    (∀ x ∈ (GetSeq procs pids p).1, x = newVal p.New) ∧
      poolEmpty (GetSeq procs pids p).2 ∧ (GetSeq procs pids p).2.New = p.New := by
  induction pids generalizing p with
  | nil => exact ⟨fun x hx => absurd hx (List.not_mem_nil x), h, rfl⟩
  | cons pid rest ih =>
    obtain ⟨hv, he, hn⟩ := Get_of_empty procs pid h
    obtain ⟨ihv, ihe, ihn⟩ := ih he
    refine ⟨?_, ihe, ?_⟩
    · intro x hx
      simp only [GetSeq, List.mem_cons] at hx
      rcases hx with h1 | h2
      · rw [h1]; exact hv
      · rw [ihv x h2, hn]
    · show (GetSeq procs rest (Pool.Get procs pid p).2.1).2.New = p.New
      rw [ihn, hn]

/-- C3: `Put A` pinned to shard 0 of a fresh pool, one rotation (the hook
demoting the current table to victim), then `Get` pinned to shard 0 with no
other activity: the pool's current table is nil after the rotation, and the
`Get` still returns `A`, retrieved through the victim-generation fallback. -/
theorem claim3_single_rotation_survival (procs : Nat) (hp : 0 < procs) (a : α)
    (nw : Option (Unit → α)) :
    ((poolCleanup (WPut procs 0 0 (some a)
        (World.mk [Pool.mk none 0 none 0 nw] [] []))).pools.getD 0
        emptyPool).localTable = none ∧
      (WGet procs 0 0 (poolCleanup (WPut procs 0 0 (some a)
        (World.mk [Pool.mk none 0 none 0 nw] [] [])))).1 = some a := by
  have h1 : WPut procs 0 0 (some a) (World.mk [Pool.mk none 0 none 0 nw] [] []) =
      World.mk [Pool.mk
        (some ((List.replicate procs emptyLocal).set 0 ⟨some a, []⟩))
        procs none 0 nw] [0] [] := by
    simp only [WPut]
    rw [show ([Pool.mk none 0 none 0 nw].getD 0 emptyPool) =
      Pool.mk none 0 none 0 nw from rfl]
    rw [Put_fresh procs 0 none 0 nw a]
    rfl
  rw [h1]
  exact ⟨rfl, Get_after_demote procs hp a nw⟩

/-- Witness for C3 with one unit and the value 5. -/
theorem claim3_single_rotation_survival_witness :
    (0 : Nat) < 1 ∧
      (WGet 1 0 0 (poolCleanup (WPut 1 0 0 (some (5 : Nat))
        (World.mk [Pool.mk none 0 none 0 (none : Option (Unit → Nat))] [] [])))).1 =
        some 5 :=
  ⟨Nat.zero_lt_one, (claim3_single_rotation_survival 1 Nat.zero_lt_one 5 none).2⟩

/-- C4: `Put A` pinned to shard 0 of a fresh pool, then two consecutive
rotations with no intervening operation: the pool is back to the zero pool
(current table and victim both nil) so `A` is unreachable, and every `Get`
of any subsequent sequence returns the factory output when `New` is
configured and the nil marker otherwise — never a pooled value. -/
theorem claim4_double_rotation_eviction (procs : Nat) (a : α)
    (nw : Option (Unit → α)) :
    (poolCleanup (poolCleanup (WPut procs 0 0 (some a)
        (World.mk [Pool.mk none 0 none 0 nw] [] [])))).pools.getD 0 emptyPool =
      Pool.mk none 0 none 0 nw ∧
      ∀ pids : List Nat, ∀ x ∈ (GetSeq procs pids (Pool.mk none 0 none 0 nw)).1,
        x = newVal nw := by
  have h1 : WPut procs 0 0 (some a) (World.mk [Pool.mk none 0 none 0 nw] [] []) =
      World.mk [Pool.mk
        (some ((List.replicate procs emptyLocal).set 0 ⟨some a, []⟩))
        procs none 0 nw] [0] [] := by
    simp only [WPut]
    rw [show ([Pool.mk none 0 none 0 nw].getD 0 emptyPool) =
      Pool.mk none 0 none 0 nw from rfl]
    rw [Put_fresh procs 0 none 0 nw a]
    rfl
  rw [h1]
  exact ⟨rfl, fun pids =>
    (GetSeq_empty procs pids
      (⟨trivial, trivial⟩ : poolEmpty (Pool.mk none 0 none 0 nw))).1⟩

/-- Witness for C4 with one unit, value 5, no factory, two subsequent gets. -/
theorem claim4_double_rotation_eviction_witness :
    (none : Option Nat) ∈
        (GetSeq 1 [0, 0] (Pool.mk none 0 none 0 (none : Option (Unit → Nat)))).1 ∧
      (none : Option Nat) = newVal (none : Option (Unit → Nat)) :=
  ⟨by decide, (claim4_double_rotation_eviction 1 5 none).2 [0, 0] none (by decide)⟩

/-- C6 counterexample: with 2 shards and the caller pinned to shard 0, the
steal phase's index order is `[1, 0]` — it ends by calling `popTail` on the
caller's own shard 0, refuting "the caller's own shard is not re-scanned
during this phase". -/
theorem claim6_counterexample :
    stealOrder 2 0 = [1, 0] ∧ (0 : Nat) ∈ stealOrder 2 0 :=
  ⟨by decide, by decide⟩

/-- C6 (amended): the steal phase visits all `size` shards of the current
table, in offset-from-self order starting at `(pid+1) % size`: every shard
index below `size` is visited, no index twice, and the caller's own shard is
the last one visited (not skipped). -/
theorem claim6_steal_order_correct (size pid : Nat) (h : pid < size) :
    (stealOrder size pid).length = size ∧
      (∀ j, j < size → j ∈ stealOrder size pid) ∧
      (stealOrder size pid).Nodup ∧
      (stealOrder size pid).getLast? = some pid := by
  have hsz : 0 < size := Nat.lt_of_le_of_lt (Nat.zero_le pid) h
  refine ⟨?_, ?_, ?_, ?_⟩
  · simp [stealOrder]
  · intro j hj
    refine List.mem_map.mpr ⟨(j + size - (pid + 1) % size) % size,
      List.mem_range.mpr (Nat.mod_lt _ hsz), ?_⟩
    obtain ⟨q, hq⟩ : ∃ q, size * q + (pid + 1) % size = pid + 1 :=
      ⟨(pid + 1) / size, Nat.div_add_mod (pid + 1) size⟩
    have hrlt : (pid + 1) % size < size := Nat.mod_lt _ hsz
    rw [Nat.add_right_comm pid _ 1, Nat.add_mod_mod]
    have hmul : size * (q + 1) = size * q + size := by ring
    have key : pid + 1 + (j + size - (pid + 1) % size) = j + size * (q + 1) := by
      omega
    rw [key, Nat.add_mul_mod_self_left, Nat.mod_eq_of_lt hj]
  · refine List.Nodup.map_on ?_ (List.nodup_range size)
    intro i hi i2 hi2 he
    rw [List.mem_range] at hi hi2
    rw [Nat.add_right_comm pid i 1, Nat.add_right_comm pid i2 1] at he
    have h3 : i % size = i2 % size := Nat.ModEq.add_left_cancel' (pid + 1) he
    rw [Nat.mod_eq_of_lt hi, Nat.mod_eq_of_lt hi2] at h3
    exact h3
  · obtain ⟨k, rfl⟩ : ∃ k, size = k + 1 := ⟨size - 1, by omega⟩
    unfold stealOrder
    rw [show List.range (k + 1) = List.range k ++ [k] from List.range_succ k,
      List.map_append, List.map_cons, List.map_nil, List.getLast?_concat]
    rw [Nat.add_assoc pid k 1, Nat.add_mod_right, Nat.mod_eq_of_lt h]

/-- Witness for C6 (amended) at 2 shards, caller on shard 0. -/
theorem claim6_steal_order_correct_witness :
    (0 : Nat) < 2 ∧ (stealOrder 2 0).length = 2 ∧ (1 : Nat) ∈ stealOrder 2 0 ∧
      (stealOrder 2 0).getLast? = some 0 :=
  ⟨by decide, (claim6_steal_order_correct 2 0 (by decide)).1,
    (claim6_steal_order_correct 2 0 (by decide)).2.1 1 (by decide),
    (claim6_steal_order_correct 2 0 (by decide)).2.2.2⟩

/-- C8 counterexample: the `Pool` struct carries no identity field (its
`noCopy` marker is zero-size and only inspected statically by `go vet`), so
a field-wise value copy of a used pool is indistinguishable from the
original, and the first operation on the copy proceeds normally — it pushes
the value and returns, instead of detecting the copy and aborting. -/
theorem claim8_counterexample :
    fieldwiseCopy (Pool.mk (some [PoolLocal.mk (some 1) []]) 1 none 0
        (none : Option (Unit → Nat))) =
      Pool.mk (some [PoolLocal.mk (some 1) []]) 1 none 0 none ∧
      (Pool.Put 1 0 (fieldwiseCopy (Pool.mk (some [PoolLocal.mk (some 1) []]) 1
        none 0 (none : Option (Unit → Nat)))) (some 2)).1.localTable =
        some [PoolLocal.mk (some 1) [2]] :=
  ⟨rfl, rfl⟩

/-- C8 (amended): the pool performs no runtime ownership/identity check: a
field-wise copy equals the original (there is no identity field to differ),
and every operation on the copy proceeds exactly as on the original rather
than aborting — copying after first use is only flagged statically by the
vet tool via the zero-size `noCopy` marker. -/
theorem claim8_no_copy_detection (procs pid : Nat) (p : Pool α)
    (x : Option α) :
    fieldwiseCopy p = p ∧
      Pool.Put procs pid (fieldwiseCopy p) x = Pool.Put procs pid p x ∧
      Pool.Get procs pid (fieldwiseCopy p) = Pool.Get procs pid p :=
  ⟨rfl, rfl, rfl⟩

/-- C10 counterexample: a pool with victim size 1 and a value cached in the
victim shard 0; the caller is pinned to shard 1, so `pid ≥ victimSize`:
`getSlow` returns nil at once and leaves the victim size at 1 — it does not
store 0 in this case, refuting the claim's parenthetical. -/
theorem claim10_counterexample :
    (Pool.getSlow 1 (Pool.mk (some (List.replicate 2 emptyLocal)) 2
        (some [PoolLocal.mk (some 9) []]) 1 (none : Option (Unit → Nat)))).1 =
      none ∧
      (Pool.getSlow 1 (Pool.mk (some (List.replicate 2 emptyLocal)) 2
        (some [PoolLocal.mk (some 9) []]) 1
        (none : Option (Unit → Nat)))).2.victimSize = 1 :=
  ⟨by decide, by decide⟩

/-- C10 (amended): `getSlow` stores 0 into the victim size exactly when the
caller's index is below the victim size and the entire scan misses; when
`pid ≥ victimSize` (in particular whenever the victim size is already 0, as
after a previous zeroing) a missing `getSlow` returns nil with the pool
completely untouched, so the victim generation is skipped until the next
rotation installs a new one. -/
theorem claim10_victim_zeroing (pid : Nat) (p : Pool α) :
    (pid < p.victimSize → (Pool.getSlow pid p).1 = none →
        ((Pool.getSlow pid p).2).victimSize = 0) ∧
      (p.victimSize ≤ pid → (Pool.getSlow pid p).1 = none →
        (Pool.getSlow pid p).2 = p) := by
  constructor
  · intro hlt
    simp only [Pool.getSlow]
    split
    · intro hx
      exact absurd hx (by simp)
    · rw [if_neg (Nat.not_le_of_lt hlt)]
      split
      · intro hx
        exact absurd hx (by simp)
      · split
        · intro hx
          exact absurd hx (by simp)
        · intro _
          rfl
  · intro hge
    simp only [Pool.getSlow]
    split
    · intro hx
      exact absurd hx (by simp)
    · rw [if_pos hge]
      intro _
      rfl

/-- Witness for C10 (amended): one shard, empty current and victim tables of
size 1, caller pinned to shard 0 — the scan misses and the victim size is
zeroed. -/
theorem claim10_victim_zeroing_witness :
    (0 : Nat) < (Pool.mk (some [emptyLocal]) 1 (some [emptyLocal]) 1
        (none : Option (Unit → Nat))).victimSize ∧
      (Pool.getSlow 0 (Pool.mk (some [emptyLocal]) 1 (some [emptyLocal]) 1
        (none : Option (Unit → Nat)))).1 = none ∧
      (Pool.getSlow 0 (Pool.mk (some [emptyLocal]) 1 (some [emptyLocal]) 1
        (none : Option (Unit → Nat)))).2.victimSize = 0 :=
  ⟨by decide, by decide,
    (claim10_victim_zeroing 0 (Pool.mk (some [emptyLocal]) 1
      (some [emptyLocal]) 1 (none : Option (Unit → Nat)))).1 (by decide)
      (by decide)⟩

/-! ### Fold lemmas for the rotation hook -/

theorem foldl_set_getD_not_mem {β : Type} (f : β → β) (d : β) (j : Nat)
    (l : List Nat) :
    ∀ ps : List β, j ∉ l →
      (l.foldl (fun acc i => acc.set i (f (acc.getD i d))) ps).getD j d =
        ps.getD j d := by
  induction l with
  | nil => intro ps _; rfl
  | cons i rest ih =>
    intro ps hj
    have hji : i ≠ j := fun he => hj (he ▸ List.mem_cons_self i rest)
    have hrest : j ∉ rest := fun hm => hj (List.mem_cons_of_mem _ hm)
    rw [List.foldl_cons, ih _ hrest]
    exact getD_set_ne ps i j _ d hji

theorem foldl_set_getD_mem {β : Type} (f : β → β) (d : β) (hfd : f d = d)
    (j : Nat) (l : List Nat) :
    ∀ ps : List β, l.Nodup → j ∈ l →
      (l.foldl (fun acc i => acc.set i (f (acc.getD i d))) ps).getD j d =
        f (ps.getD j d) := by
  induction l with
  | nil => intro ps _ hj; cases hj
  | cons i rest ih =>
    intro ps hl hj
    rw [List.foldl_cons]
    rcases List.mem_cons.mp hj with rfl | hjr
    · have hnr : j ∉ rest := (List.nodup_cons.mp hl).1
      rw [foldl_set_getD_not_mem f d j rest _ hnr]
      by_cases hlen : j < ps.length
      · exact getD_set_self ps j _ d hlen
      · rw [List.getD_eq_default _ _ (by rw [List.length_set]; exact Nat.le_of_not_lt hlen),
          List.getD_eq_default _ _ (Nat.le_of_not_lt hlen), hfd]
    · have hij : i ≠ j := fun he => (List.nodup_cons.mp hl).1 (he ▸ hjr)
      rw [ih _ (List.nodup_cons.mp hl).2 hjr]
      rw [getD_set_ne ps i j _ d hij]

/-- C5 counterexample: put a value on shard 0 of a fresh pool, rotate once:
the pool now has no current table (nil) but a victim of size 1; a second
rotation still AFFECTS it — its victim generation is dropped (size 1 → 0) —
refuting "pools that have no current table are unaffected by the rotation".
-/
theorem claim5_counterexample :
    ((poolCleanup (WPut 1 0 0 (some 1) (initWorld 1 : World Nat))).pools.getD 0
        emptyPool).localTable.isNone = true ∧
      ((poolCleanup (WPut 1 0 0 (some 1)
        (initWorld 1 : World Nat))).pools.getD 0 emptyPool).victimSize = 1 ∧
      ((poolCleanup (poolCleanup (WPut 1 0 0 (some 1)
        (initWorld 1 : World Nat)))).pools.getD 0 emptyPool).victimSize = 0 :=
  ⟨rfl, rfl, rfl⟩

/-- C5 (amended): one rotation-hook invocation performs, for every pool in
`allPools` (the registered pools, no id twice), exactly the demotion: the
old victim generation is dropped by overwrite, the current table pointer and
its size move together to the victim fields, and the current table is reset
to nil/size 0.  A pool in neither bookkeeping list is untouched.  But a pool
with no current table that is still in the previous cycle's `oldPools` list
is not unaffected: its victim generation is dropped. -/
theorem claim5_rotation_effects (w : World α) (hall : w.allPools.Nodup)
    (hold : w.oldPools.Nodup) :
    (∀ id ∈ w.allPools,
        (poolCleanup w).pools.getD id emptyPool =
          demote (w.pools.getD id emptyPool)) ∧
      (∀ id, id ∉ w.allPools → id ∉ w.oldPools →
        (poolCleanup w).pools.getD id emptyPool = w.pools.getD id emptyPool) ∧
      (∀ id ∈ w.oldPools, id ∉ w.allPools →
        (poolCleanup w).pools.getD id emptyPool =
          dropVictim (w.pools.getD id emptyPool)) := by
  refine ⟨?_, ?_, ?_⟩
  · intro id hid
    show (w.allPools.foldl
        (fun acc i => acc.set i (demote (acc.getD i emptyPool)))
        (w.oldPools.foldl
          (fun acc i => acc.set i (dropVictim (acc.getD i emptyPool)))
          w.pools)).getD id emptyPool = demote (w.pools.getD id emptyPool)
    rw [foldl_set_getD_mem demote emptyPool rfl id w.allPools _ hall hid]
    by_cases hio : id ∈ w.oldPools
    · rw [foldl_set_getD_mem dropVictim emptyPool rfl id w.oldPools _ hold hio]
      rfl
    · rw [foldl_set_getD_not_mem dropVictim emptyPool id w.oldPools _ hio]
  · intro id hna hno
    show (w.allPools.foldl
        (fun acc i => acc.set i (demote (acc.getD i emptyPool)))
        (w.oldPools.foldl
          (fun acc i => acc.set i (dropVictim (acc.getD i emptyPool)))
          w.pools)).getD id emptyPool = w.pools.getD id emptyPool
    rw [foldl_set_getD_not_mem demote emptyPool id w.allPools _ hna,
      foldl_set_getD_not_mem dropVictim emptyPool id w.oldPools _ hno]
  · intro id hio hna
    show (w.allPools.foldl
        (fun acc i => acc.set i (demote (acc.getD i emptyPool)))
        (w.oldPools.foldl
          (fun acc i => acc.set i (dropVictim (acc.getD i emptyPool)))
          w.pools)).getD id emptyPool = dropVictim (w.pools.getD id emptyPool)
    rw [foldl_set_getD_not_mem demote emptyPool id w.allPools _ hna,
      foldl_set_getD_mem dropVictim emptyPool rfl id w.oldPools _ hold hio]

/-- Witness for C5 (amended): a world with one registered pool holding a
value; the hook demotes it exactly. -/
theorem claim5_rotation_effects_witness :
    (WPut 1 0 0 (some 1) (initWorld 1 : World Nat)).allPools.Nodup ∧
      (WPut 1 0 0 (some 1) (initWorld 1 : World Nat)).oldPools.Nodup ∧
      (0 : Nat) ∈ (WPut 1 0 0 (some 1) (initWorld 1 : World Nat)).allPools ∧
      (poolCleanup (WPut 1 0 0 (some 1)
        (initWorld 1 : World Nat))).pools.getD 0 emptyPool =
        demote ((WPut 1 0 0 (some 1)
          (initWorld 1 : World Nat)).pools.getD 0 emptyPool) :=
  ⟨by decide, by decide, by decide,
    (claim5_rotation_effects (WPut 1 0 0 (some 1) (initWorld 1 : World Nat))
      (by decide) (by decide)).1 0 (by decide)⟩

/-! ### Registration characterisation of `Put`/`Get` -/

theorem pin_snd_true {procs pid : Nat} {p : Pool α}
    (h : (pin procs pid p).2 = true) : p.localTable = none := by
  unfold pin pinSlow at h
  split at h
  · simp at h
  · exact Option.isNone_iff_eq_none.mp h

theorem Put_snd_true {procs pid : Nat} {p : Pool α} {x : Option α}
    (h : (Pool.Put procs pid p x).2 = true) : p.localTable = none := by
  cases x with
  | none => simp [Pool.Put] at h
  | some v =>
    revert h
    simp only [Pool.Put]
    split <;> exact fun h => pin_snd_true h

theorem Put_localTable_isSome {procs pid : Nat} {p : Pool α} {x : Option α}
    (h : (p.localTable).isSome = true) :
    ((Pool.Put procs pid p x).1.localTable).isSome = true := by
  cases x with
  | none => exact h
  | some v =>
    simp only [Pool.Put]
    split <;> simp

theorem Put_reg_isSome {procs pid : Nat} {p : Pool α} {x : Option α}
    (h : (Pool.Put procs pid p x).2 = true) :
    ((Pool.Put procs pid p x).1.localTable).isSome = true := by
  cases x with
  | none => simp [Pool.Put] at h
  | some v =>
    simp only [Pool.Put]
    split <;> simp

theorem Get_snd_true (procs pid : Nat) (p : Pool α) :
    (Pool.Get procs pid p).2.2 = true → p.localTable = none := by
  simp only [Pool.Get]
  split
  · exact fun h => pin_snd_true h
  · split
    · exact fun h => pin_snd_true h
    · split
      · exact fun h => pin_snd_true h
      · split <;> exact fun h => pin_snd_true h

theorem getSlow_localTable_isSome (pid : Nat) (q : Pool α)
    (hq : (q.localTable).isSome = true) :
    (((Pool.getSlow pid q).2).localTable).isSome = true := by
  simp only [Pool.getSlow]
  split
  · simp
  · split
    · exact hq
    · split
      · exact hq
      · split
        · exact hq
        · exact hq

theorem Get_localTable_isSome (procs pid : Nat) (p : Pool α) :
    ((Pool.Get procs pid p).2.1.localTable).isSome = true := by
  simp only [Pool.Get]
  split
  · simp
  · split
    · simp
    · split
      · rename_i x p3 heq
        have h2 := congrArg (fun r => ((r.2).localTable).isSome) heq
        simp only at h2
        rw [← h2]
        exact getSlow_localTable_isSome pid _ (by simp)
      · rename_i p3 heq
        have h2 := congrArg (fun r => ((r.2).localTable).isSome) heq
        simp only at h2
        split
        · rw [← h2]
          exact getSlow_localTable_isSome pid _ (by simp)
        · rw [← h2]
          exact getSlow_localTable_isSome pid _ (by simp)

/-! ### The registry invariant: no pool is registered twice in one list -/

/-- Invariant of the register/rotate step relation: neither bookkeeping list
mentions a pool twice, and every pool in `allPools` has a published current
table. -/
def RegInv (w : World α) : Prop :=
  w.allPools.Nodup ∧ w.oldPools.Nodup ∧
    ∀ id ∈ w.allPools, ((w.pools.getD id emptyPool).localTable).isSome = true

theorem RegInv_init (n : Nat) : RegInv (initWorld n : World α) := by
  refine ⟨List.nodup_nil, List.nodup_nil, fun id hid => absurd hid ?_⟩
  exact List.not_mem_nil id

theorem RegInv_step {procs : Nat} {w w' : World α} (hw : RegInv w)
    (hs : Step procs w w') : RegInv w' := by
  obtain ⟨hall, hold, hsome⟩ := hw
  cases hs with
  | put pid id x hpid hid =>
    by_cases hreg : (Pool.Put procs pid (w.pools.getD id emptyPool) x).2 = true
    · have hnil : (w.pools.getD id emptyPool).localTable = none :=
        Put_snd_true hreg
      have hnotin : id ∉ w.allPools := by
        intro hmem
        have h1 := hsome id hmem
        rw [hnil] at h1
        simp at h1
      constructor
      · show (if (Pool.Put procs pid (w.pools.getD id emptyPool) x).2 = true
            then w.allPools ++ [id] else w.allPools).Nodup
        rw [if_pos hreg]
        refine List.nodup_append.mpr ⟨hall, List.nodup_singleton id, ?_⟩
        intro a ha hb
        rw [List.mem_singleton] at hb
        exact hnotin (hb ▸ ha)
      refine ⟨hold, ?_⟩
      intro id2 hid2
      show (((w.pools.set id
          (Pool.Put procs pid (w.pools.getD id emptyPool) x).1).getD id2
          emptyPool).localTable).isSome = true
      by_cases hii : id2 = id
      · subst hii
        rw [getD_set_self _ _ _ _ hid]
        exact Put_reg_isSome hreg
      · rw [getD_set_ne _ _ _ _ _ (fun he => hii he.symm)]
        refine hsome id2 ?_
        revert hid2
        show id2 ∈ (if (Pool.Put procs pid (w.pools.getD id emptyPool) x).2 = true
            then w.allPools ++ [id] else w.allPools) → id2 ∈ w.allPools
        rw [if_pos hreg]
        intro hid2
        rcases List.mem_append.mp hid2 with h2 | h2
        · exact h2
        · exact absurd (List.mem_singleton.mp h2) hii
    · constructor
      · show (if (Pool.Put procs pid (w.pools.getD id emptyPool) x).2 = true
            then w.allPools ++ [id] else w.allPools).Nodup
        rw [if_neg hreg]
        exact hall
      refine ⟨hold, ?_⟩
      intro id2 hid2
      have hid2' : id2 ∈ w.allPools := by
        revert hid2
        show id2 ∈ (if (Pool.Put procs pid (w.pools.getD id emptyPool) x).2 = true
            then w.allPools ++ [id] else w.allPools) → id2 ∈ w.allPools
        rw [if_neg hreg]
        exact fun h => h
      show (((w.pools.set id
          (Pool.Put procs pid (w.pools.getD id emptyPool) x).1).getD id2
          emptyPool).localTable).isSome = true
      by_cases hii : id2 = id
      · subst hii
        rw [getD_set_self _ _ _ _ hid]
        exact Put_localTable_isSome (hsome id2 hid2')
      · rw [getD_set_ne _ _ _ _ _ (fun he => hii he.symm)]
        exact hsome id2 hid2'
  | get pid id hpid hid =>
    constructor
    · show (if (Pool.Get procs pid (w.pools.getD id emptyPool)).2.2 = true
          then w.allPools ++ [id] else w.allPools).Nodup
      by_cases hreg : (Pool.Get procs pid (w.pools.getD id emptyPool)).2.2 = true
      · rw [if_pos hreg]
        have hnil : (w.pools.getD id emptyPool).localTable = none :=
          Get_snd_true procs pid _ hreg
        have hnotin : id ∉ w.allPools := by
          intro hmem
          have h1 := hsome id hmem
          rw [hnil] at h1
          simp at h1
        refine List.nodup_append.mpr ⟨hall, List.nodup_singleton id, ?_⟩
        intro a ha hb
        rw [List.mem_singleton] at hb
        exact hnotin (hb ▸ ha)
      · rw [if_neg hreg]
        exact hall
    refine ⟨hold, ?_⟩
    intro id2 hid2
    show (((w.pools.set id
        (Pool.Get procs pid (w.pools.getD id emptyPool)).2.1).getD id2
        emptyPool).localTable).isSome = true
    by_cases hii : id2 = id
    · subst hii
      rw [getD_set_self _ _ _ _ hid]
      exact Get_localTable_isSome procs pid _
    · rw [getD_set_ne _ _ _ _ _ (fun he => hii he.symm)]
      refine hsome id2 ?_
      revert hid2
      show id2 ∈ (if (Pool.Get procs pid (w.pools.getD id emptyPool)).2.2 = true
          then w.allPools ++ [id] else w.allPools) → id2 ∈ w.allPools
      by_cases hreg : (Pool.Get procs pid (w.pools.getD id emptyPool)).2.2 = true
      · rw [if_pos hreg]
        intro hid2
        rcases List.mem_append.mp hid2 with h2 | h2
        · exact h2
        · exact absurd (List.mem_singleton.mp h2) hii
      · rw [if_neg hreg]
        exact fun h => h
  | cleanup =>
    exact ⟨List.nodup_nil, hall, fun id2 hid2 => absurd hid2 (List.not_mem_nil id2)⟩

/-- C9 counterexample: starting from one fresh pool, put – rotate – put is a
reachable run after which pool 0 sits in `allPools` AND in `oldPools` at the
same time (`pinSlow` re-registers it because rotation nil-ed its table while
it stayed in `oldPools`), so it does NOT appear at most once across the
registry's bookkeeping lists taken together. -/
theorem claim9_counterexample :
    Reachable 1 1 (WPut 1 0 0 (some 1)
        (poolCleanup (WPut 1 0 0 (some 1) (initWorld 1 : World Nat)))) ∧
      ¬ ((WPut 1 0 0 (some 1) (poolCleanup (WPut 1 0 0 (some 1)
          (initWorld 1 : World Nat)))).allPools ++
        (WPut 1 0 0 (some 1) (poolCleanup (WPut 1 0 0 (some 1)
          (initWorld 1 : World Nat)))).oldPools).Nodup := by
  constructor
  · refine Reachable.step _ _ ?_ (Step.put _ 0 0 (some 1) (by decide) ?_)
    · refine Reachable.step _ _ ?_ (Step.cleanup _)
      exact Reachable.step _ _ Reachable.init
        (Step.put _ 0 0 (some 1) (by decide) (by decide))
    · decide
  · decide

/-- C9 (amended): at every reachable state of the register/rotate step
relation, each registry list — `allPools` and `oldPools` — individually
mentions a pool at most once (a pool is appended to `allPools` only while
its current table is nil, and rotation swaps the lists); hence one rotation
cycle demotes no pool twice.  A pool can however appear in both lists at
once after being reused between rotations. -/
theorem claim9_registry_nodup {procs n : Nat} {w : World α}
    (h : Reachable procs n w) : w.allPools.Nodup ∧ w.oldPools.Nodup := by
  have hinv : RegInv w := by
    induction h with
    | init => exact RegInv_init n
    | step w1 w2 h1 hs ih => exact RegInv_step ih hs
  exact ⟨hinv.1, hinv.2.1⟩

/-- Witness for C9 (amended) after one registering `Put` from a fresh world. -/
theorem claim9_registry_nodup_witness :
    (WPut 1 0 0 (some 1) (initWorld 1 : World Nat)).allPools.Nodup ∧
      (WPut 1 0 0 (some 1) (initWorld 1 : World Nat)).oldPools.Nodup :=
  claim9_registry_nodup (Reachable.step _ _ Reachable.init
    (Step.put _ 0 0 (some 1) (by decide) (by decide)))

end GoSync
